import Mathlib

/-!
Ring matrix multiplication: `mm_mpi.cpp` against `mm.cpp`.

Embedding of `src/matrix_multiplication_cpu/mm_mpi.cpp` (the ring engine
`matrixMultiply1` and the decomposition / gather of `main`) and of
`src/matrix_multiplication_cpu/mm.cpp` (`matrixMultiply`).

The control flow of both multiply functions does not depend on the data, so
each function is embedded as the sequence of memory and communication
operations it issues, in program order (`Op`).  `exec` gives an operation its
effect on the buffers of one process; an access outside a buffer is a fault
(`none`).  `mpiRun` composes the processes of a run through the blocking
collective calls.

Lines 52 and 54 of `mm_mpi.cpp` lack their terminating `;`; they are read as
the statements they spell, as lines 15 and 17 of `mm.cpp` have them.

C++ `int` is the 32-bit two's-complement integer: a value of type `int` is an
`Int` in `[-2^31, 2^31)`, and the result of every `+`, `-` and `*` on `int` is
wrapped into that range (`int32`).  Signed overflow is undefined in C++; the
wrap is what the arithmetic of the machine yields, and wherever an index
overflows below, the wrapped index lies outside its buffer, so the overflow is
a fault under either reading.  C++ `%` and `/` on `int` truncate towards zero
and are `Int.tmod` and `Int.tdiv`.  The scalar type `T` only needs `0`,
`+` and `*`; no algebraic law is assumed of it, so the order of accumulation
is part of every statement about values.
-/

namespace MatMul

/-! ## Operations -/

/-- One memory or communication operation of a process.
* `clear`            is `T sum = 0;`
* `mac a b`          is `sum += matA[a] * matB[b];`
* `store r`          is `result[r] = sum;`
* `sendrecv c d s`   is `MPI_Sendrecv_replace(matB, c, _, d, 0, s, 0, MPI_COMM_WORLD, _)`
* `gatherInPlace c`  is `MPI_Gather(MPI_IN_PLACE, c, _, localResult, c, _, 0, MPI_COMM_WORLD)`
* `gatherSend c`     is `MPI_Gather(localResult, c, _, nullptr, c, _, 0, MPI_COMM_WORLD)` -/
inductive Op where
  | clear : Op
  | mac (a b : Int) : Op
  | store (r : Int) : Op
  | sendrecv (count dest source : Int) : Op
  | gatherInPlace (count : Int) : Op
  | gatherSend (count : Int) : Op
  deriving DecidableEq

/-- Values taken by `x` in `for (int x = lo; x < hi; x++)`, in order. -/
def forRange (lo hi : Int) : List Int :=
  (List.range (hi - lo).toNat).map fun (t : Nat) => lo + (t : Int)

/-! ## Arithmetic on `int` -/

/-- The value of type `int` that an exact result `x` is stored as: `x` wrapped
into `[-2^31, 2^31)`. -/
def int32 (x : Int) : Int := (x + 2147483648) % 4294967296 - 2147483648

/-- `a + b` on `int`. -/
def iadd (a b : Int) : Int := int32 (a + b)

/-- `a - b` on `int`. -/
def isub (a b : Int) : Int := int32 (a - b)

/-- `a * b` on `int`. -/
def imul (a b : Int) : Int := int32 (a * b)

/-! ## `mm_mpi.cpp` -/

/-- Line 45 of `matrixMultiply1`: `(rank - step) % size * rowsPerProcess`. -/
def startCol (rank step size rowsPerProcess : Int) : Int :=
  imul ((isub rank step).tmod size) rowsPerProcess

/-- Line 46 of `matrixMultiply1`: `startCol + rowsPerProcess`. -/
def endCol (rank step size rowsPerProcess : Int) : Int :=
  iadd (startCol rank step size rowsPerProcess) rowsPerProcess

/-- Line 57 of `matrixMultiply1`: `(rank + 1) % size`. -/
def rank_send (rank size : Int) : Int := (iadd rank 1).tmod size

/-- Line 58 of `matrixMultiply1`: `(rank - 1) % size`. -/
def rank_recv (rank size : Int) : Int := (isub rank 1).tmod size

/-- Lines 49-54 of `matrixMultiply1`: the body of the `j` loop, one cell of
the result, with `j_k = j - startCol`. -/
def cellOps (n i j j_k : Int) : List Op :=
  Op.clear ::
    ((forRange 0 n).map fun k => Op.mac (iadd (imul i n) k) (iadd (imul k n) j_k))
    ++ [Op.store (iadd (imul i n) j)]

/-- Lines 45-56 of `matrixMultiply1`: the local compute of one step. -/
def stepCompute (n rank size rowsPerProcess step : Int) : List Op :=
  (forRange 0 rowsPerProcess).flatMap fun i =>
    (forRange (startCol rank step size rowsPerProcess)
        (endCol rank step size rowsPerProcess)).flatMap fun j =>
      cellOps n i j (isub j (startCol rank step size rowsPerProcess))

/-- Lines 57-60 of `matrixMultiply1`: the exchange that ends one step. -/
def stepExchange (n rank size rowsPerProcess : Int) : List Op :=
  if rank_send rank size ≠ rank then
    [Op.sendrecv (imul n rowsPerProcess) (rank_send rank size) (rank_recv rank size)]
  else []

/-- The function `matrixMultiply1(matA, matB, result, n, rank, size, rowsPerProcess)`
of `mm_mpi.cpp`: the operations it issues, in program order. -/
def matrixMultiply1 (n rank size rowsPerProcess : Int) : List Op :=
  (forRange 0 size).flatMap fun step =>
    stepCompute n rank size rowsPerProcess step ++ stepExchange n rank size rowsPerProcess

/-- Line 122 of `main`: `int rowsPerProcess = n / size;`. -/
def rowsPerProcess (n size : Int) : Int := n.tdiv size

/-- Line 127 of `main`: `localSize`, the number of scalars of each of the three
local buffers.  It is a product of `size_t`, 64 bits wide: exact for the
non-negative `int` values `n` and `rowsPerProcess` of a run. -/
def localSize (n size : Int) : Int := rowsPerProcess n size * n

/-- Lines 122-180 of `main` for one rank, after the broadcast of `n`: the call
of `matrixMultiply1` followed by the rank's call of `MPI_Gather`, whose `int`
count is `localSize` narrowed from `size_t`.  Nothing else stands between the
broadcast and the call of `matrixMultiply1`: these lines throw nothing and
report nothing. -/
def main (n rank size : Int) : List Op :=
  matrixMultiply1 n rank size (rowsPerProcess n size) ++
    [if rank = 0 then Op.gatherInPlace (int32 (localSize n size))
     else Op.gatherSend (int32 (localSize n size))]

/-! ## `mm.cpp` -/

/-- The function `matrixMultiply(matA, matB, result, n)` of `mm.cpp`: the
operations it issues, in program order. -/
def matrixMultiply (n : Int) : List Op :=
  (forRange 0 n).flatMap fun i =>
    (forRange 0 n).flatMap fun j =>
      Op.clear ::
        ((forRange 0 n).map fun k => Op.mac (iadd (imul i n) k) (iadd (imul k n) j))
        ++ [Op.store (iadd (imul i n) j)]

/-! ## Memory of one process -/

/-- The buffers of one process and the accumulator `sum`. -/
structure Mem (T : Type) where
  matA : List T
  matB : List T
  result : List T
  sum : T
  deriving DecidableEq

/-- Reading `buf[i]`: defined inside the buffer only. -/
def load {T : Type} (buf : List T) (i : Int) : Option T :=
  if 0 ≤ i then buf[i.toNat]? else none

/-- Writing `buf[i] = v`: defined inside the buffer only. -/
def storeAt {T : Type} (buf : List T) (i : Int) (v : T) : Option (List T) :=
  if 0 ≤ i ∧ i.toNat < buf.length then some (buf.set i.toNat v) else none

/-- Effect of a local operation on the memory of the process that issues it.
Communication operations are not local. -/
def exec {T : Type} [Zero T] [Add T] [Mul T] (m : Mem T) : Op → Option (Mem T)
  | Op.clear => some { m with sum := 0 }
  | Op.mac a b =>
    match load m.matA a, load m.matB b with
    | some x, some y => some { m with sum := m.sum + x * y }
    | _, _ => none
  | Op.store r => (storeAt m.result r m.sum).map fun res => { m with result := res }
  | _ => none

/-- A sequential program: the operations one after the other. -/
def runSeq {T : Type} [Zero T] [Add T] [Mul T] : List Op → Mem T → Option (Mem T)
  | [], m => some m
  | op :: rest, m => (exec m op).bind (runSeq rest)

/-- Lines 126-154 of `main`: the three local buffers of a rank, `localSize`
scalars each.  `rndA` and `rndB` give the random values of the fill, `junk` the
values the result buffer happens to start with. -/
def allocate {T : Type} [Zero T] (n size : Int) (rndA rndB junk : Nat → T) : Mem T :=
  { matA := (List.range (localSize n size).toNat).map rndA
    matB := (List.range (localSize n size).toNat).map rndB
    result := (List.range (localSize n size).toNat).map junk
    sum := 0 }

/-! ## The processes of a run and the collective calls -/

/-- A process: its memory and the operations it has still to issue. -/
abbrev Proc (T : Type) := Mem T × List Op

/-- The operations that touch the memory of the issuing process only. -/
def Op.isLocal : Op → Bool
  | Op.clear => true
  | Op.mac _ _ => true
  | Op.store _ => true
  | _ => false

/-- All the results when none is a fault. -/
def allSome {α : Type} : List (Option α) → Option (List α)
  | [] => some []
  | x :: xs => x.bind fun a => (allSome xs).map fun as => a :: as

/-- The local operations a process completes, in order, before its first fault
or its next communication call. -/
def completed {T : Type} [Zero T] [Add T] [Mul T] : List Op → Mem T → List Op
  | [], _ => []
  | op :: rest, m =>
    if op.isLocal then
      match exec m op with
      | some m1 => op :: completed rest m1
      | none => []
    else []

/-- The operation at which a process faults, if it does so before its next
communication call. -/
def firstFault {T : Type} [Zero T] [Add T] [Mul T] : List Op → Mem T → Option Op
  | [], _ => none
  | op :: rest, m =>
    if op.isLocal then
      match exec m op with
      | some m1 => firstFault rest m1
      | none => some op
    else none

/-- A process runs up to its next communication call, or to its end. -/
def runLocal {T : Type} [Zero T] [Add T] [Mul T] : List Op → Mem T → Option (Proc T)
  | [], m => some (m, [])
  | op :: rest, m =>
    if op.isLocal then (exec m op).bind (runLocal rest) else some (m, op :: rest)

/-- The call `MPI_Sendrecv_replace(matB, count, _, dest, 0, source, 0, ...)` of
rank `r`, after the MPI standard, all processes being at their next
communication call.  The call
completes when `dest` and `source` are ranks of the communicator, `dest` is
receiving `count` scalars from `r` and `source` is sending `count` scalars to
`r`; the first `count` scalars of `matB` are then those of `source`. -/
def sendrecvReplace {T : Type} (procs : List (Proc T)) (r : Nat) : Option (Proc T) :=
  match procs[r]? with
  | some (m, Op.sendrecv count dest source :: rest) =>
    if 0 ≤ count ∧ count.toNat ≤ m.matB.length ∧ 0 ≤ dest ∧ 0 ≤ source then
      match procs[dest.toNat]?, procs[source.toNat]? with
      | some (_, Op.sendrecv cd _ sd :: _), some (ms, Op.sendrecv cs ds _ :: _) =>
        if cd = count ∧ sd = (r : Int) ∧ cs = count ∧ ds = (r : Int) then
          some ({ m with matB := ms.matB.take count.toNat ++ m.matB.drop count.toNat }, rest)
        else none
      | _, _ => none
    else none
  | _ => none

/-- The receive buffer of the root after `MPI_Gather` with `MPI_IN_PLACE`, after
the MPI standard:
the block of rank `r` goes to offset `r * count`, the block of the root is in
place already.  `blocks` are the send buffers of ranks `1, 2, ...`.  The
receive buffer has to hold `count` scalars for every rank. -/
def mpiGather {T : Type} (count : Nat) (recvbuf : List T) (blocks : List (List T)) :
    Option (List T) :=
  if (blocks.length + 1) * count ≤ recvbuf.length ∧ blocks.all (fun b => count ≤ b.length) then
    some (recvbuf.take count ++ blocks.flatMap (fun b => b.take count)
      ++ recvbuf.drop ((blocks.length + 1) * count))
  else none

/-- The send buffer a non-root rank contributes to the gather of `count` scalars. -/
def gatherBlock {T : Type} (count : Int) : Proc T → Option (List T)
  | (m, Op.gatherSend c :: _) => if c = count then some m.result else none
  | _ => none

/-- One round of communication, all processes being at their next
communication call: the gather when rank 0 is at its gather, the ring exchange
otherwise. -/
def commRound {T : Type} (procs : List (Proc T)) : Option (List (Proc T)) :=
  match procs with
  | (m0, Op.gatherInPlace count :: rest0) :: others =>
    if 0 ≤ count then
      match allSome (others.map (gatherBlock count)) with
      | some blocks =>
        (mpiGather count.toNat m0.result blocks).map fun g =>
          ({ m0 with result := g }, rest0) :: others.map fun p => (p.1, p.2.tail)
      | none => none
    else none
  | _ => allSome ((List.range procs.length).map (sendrecvReplace procs))

/-- The run of all processes: local operations, then one round of
communication, until every process has issued all its operations.  `fuel`
bounds the number of communication rounds. -/
def mpiRun {T : Type} [Zero T] [Add T] [Mul T] : Nat → List (Proc T) → Option (List (Mem T))
  | fuel, procs =>
    match allSome (procs.map fun p => runLocal p.2 p.1) with
    | none => none
    | some ps =>
      if ps.all (fun p => p.2.isEmpty) then some (ps.map Prod.fst)
      else
        match fuel with
        | 0 => none
        | fuel + 1 =>
          match commRound ps with
          | none => none
          | some ps1 => mpiRun fuel ps1

/-! ## Decomposition of the global matrices -/

/-- The RowBand of rank `r` as the spec describes it: rows
`[r * rpp, (r + 1) * rpp)` of the row-major `n × n` matrix `A`, row-major with
stride `n` (`main` fills the local buffers with random values instead). -/
def rowBand {T : Type} (A : List T) (n rpp r : Nat) : List T :=
  (A.drop (r * rpp * n)).take (rpp * n)

/-- The initial ColumnShard of rank `r` as the spec describes it: columns
`[r * rpp, (r + 1) * rpp)` of all `n` rows of the row-major `n × n` matrix `B`,
stored with row stride `rpp` (`main` fills the local buffers with random values
instead). -/
def columnShard {T : Type} (B : List T) (n rpp r : Nat) : List T :=
  (List.range n).flatMap fun k => (B.drop (k * n + r * rpp)).take rpp

/-- The `P` processes of a run of the ring engine on `A` and `B`: rank `r`
holds its RowBand of `A`, its initial ColumnShard of `B` and a result buffer
of `rpp * n` scalars, as `main` allocates them, and runs `matrixMultiply1`. -/
def ringProcs {T : Type} [Zero T] (A B : List T) (n P : Nat) : List (Proc T) :=
  (List.range P).map fun r =>
    ({ matA := rowBand A n (n / P) r
       matB := columnShard B n (n / P) r
       result := List.replicate (n / P * n) 0
       sum := 0 },
     matrixMultiply1 n r P (rowsPerProcess n P))

/-- The exchange of lines 57-60 on the assignment of shards to ranks: after
it rank `r` holds what rank `rank_recv r` held before it; a rank that is its
own `rank_send` does not exchange. -/
def rotate {α : Type} (size : Int) (held : List α) : Option (List α) :=
  allSome ((forRange 0 size).map fun r =>
    if rank_send r size ≠ r then load held (rank_recv r size) else load held r)

/-- The shard exchanges among the operations of a process, in order. -/
def exchangesOf (ops : List Op) : List Op :=
  ops.filter fun op =>
    match op with
    | Op.sendrecv _ _ _ => true
    | _ => false

/-- The cell `(i, j)` of the product as the spec words it:
`Σ_k matA[i·n + k] · matB[k·n + j]`, accumulated from `0` for `k = 0 … n-1` in
increasing order. -/
def productCell {T : Type} [Zero T] [Add T] [Mul T] (matA matB : List T) (n i j : Nat) : T :=
  (List.range n).foldl (fun s k => s + matA.getD (i * n + k) 0 * matB.getD (k * n + j) 0) 0

/-- What holds of the memory `m` of a run started from `m0` once the first `c`
cells of the result, in row-major order, are written: the inputs are as they
were and each written cell holds its `productCell`. -/
def CellsDone {T : Type} [Zero T] [Add T] [Mul T] (m0 : Mem T) (n c : Nat) (m : Mem T) : Prop :=
  m.matA = m0.matA ∧ m.matB = m0.matB ∧ m.result.length = m0.result.length ∧
    ∀ idx, idx < c →
      m.result[idx]? = some (productCell m0.matA m0.matB n (idx / n) (idx % n))

/-! # Theorems -/

/-! ## Evaluations of the ring engine at two processes -/

/-- C5: at `P = 2` the receive neighbour of rank 0 is `-1`, not the ring rank `1`,
and `rank_recv (rank_send 1) = -1 ≠ 1`; rank 0 passes `-1` as source to the exchange. -/
theorem rank_recv_negative_at_rank_zero :
    rank_recv 0 2 = -1 ∧ ¬ (0 ≤ rank_recv 0 2) ∧ rank_recv (rank_send 1 2) 2 ≠ 1 ∧
      Op.sendrecv 2 1 (-1) ∈ matrixMultiply1 2 0 2 1 := by
  decide

/-- C7: at `n = 2`, `P = 2`, rank 0, step 1 the code computes `startCol = -1`,
where the non-negative modulus gives `1`; the cell written at that step has
index `0 · 2 + (-1) = -1`, outside the `localSize = 2` scalars of the result. -/
theorem startCol_negative_at_rank_zero :
    startCol 0 1 2 (rowsPerProcess 2 2) = -1 ∧
      (0 - 1 : Int) % 2 * rowsPerProcess 2 2 = 1 ∧
      Op.store (0 * 2 + -1) ∈ stepCompute 2 0 2 (rowsPerProcess 2 2) 1 ∧
      Op.store (-1) ∈ matrixMultiply1 2 0 2 (rowsPerProcess 2 2) ∧
      localSize 2 2 = 2 ∧
      (allocate 2 2 (fun _ => (1 : Int)) (fun _ => 1) (fun _ => 0)).result = [0, 0] ∧
      storeAt (allocate 2 2 (fun _ => (1 : Int)) (fun _ => 1) (fun _ => 0)).result (-1) 7
        = none := by
  decide

/-- C8: at `n = 2`, `P = 2`, rank 1, step 0 (`startCol = 1`), `i = 0`, `j = 1`,
`k = 1` the code reads `matB[1 · 2 + 0] = matB[2]`, not offset
`1 · rowsPerProcess + 0 = 1`, and `2` is not below the `n · rowsPerProcess = 2` scalars
of the shard buffer: the read faults. -/
theorem matB_read_stride_at_two_ranks :
    startCol 1 0 2 (rowsPerProcess 2 2) = 1 ∧
      cellOps 2 0 1 (1 - 1) = [Op.clear, Op.mac 0 0, Op.mac 1 2, Op.store 1] ∧
      Op.mac (0 * 2 + 1) (1 * 2 + (1 - 1)) ∈ matrixMultiply1 2 1 2 (rowsPerProcess 2 2) ∧
      (1 * 2 + (1 - 1) : Int) ≠ 1 * rowsPerProcess 2 2 + (1 - 1) ∧
      ¬ ((1 * 2 + (1 - 1) : Int) < 2 * rowsPerProcess 2 2) ∧
      (allocate 2 2 (fun _ => (1 : Int)) (fun _ => 1) (fun _ => 0)).matB = [1, 1] ∧
      exec (allocate 2 2 (fun _ => (1 : Int)) (fun _ => 1) (fun _ => 0)) (Op.mac 1 2)
        = none := by
  decide

/-- C2: at `n = 6`, `P = 3`, rank 0 the column bands of the three steps are
`[0, 2)`, `[-2, 0)` and `[-4, -2)`: their union is not `[0, 6)`, no step covers
column 2, the cell `(1, 2)` of the local result is never written and the cell
`(0, -2)`, outside the result, is. -/
theorem column_bands_at_rank_zero :
    (forRange 0 3).map (fun step =>
        (startCol 0 step 3 (rowsPerProcess 6 3), endCol 0 step 3 (rowsPerProcess 6 3)))
      = [(0, 2), (-2, 0), (-4, -2)] ∧
    (∀ step ∈ forRange 0 3, ¬ (startCol 0 step 3 (rowsPerProcess 6 3) ≤ 2 ∧
        2 < endCol 0 step 3 (rowsPerProcess 6 3))) ∧
    (matrixMultiply1 6 0 3 (rowsPerProcess 6 3)).count (Op.store (1 * 6 + 2)) = 0 ∧
    Op.store (0 * 6 + -2) ∈ matrixMultiply1 6 0 3 (rowsPerProcess 6 3) := by
  decide

/-- C6: at `P = 2` the exchange step on the assignment `[0, 1]` of shards to
ranks is undefined, rank 0 receiving from the rank `-1`; and at step 1 rank 0
writes the columns `[-1, 0)`, not the columns `[1, 2)` of the shard of origin
`(0 - 1) mod 2 = 1`. -/
theorem rotate_undefined_at_two_ranks :
    rotate 2 [0, 1] = none ∧ rank_recv 0 2 = -1 ∧ load [0, 1] (rank_recv 0 2) = none ∧
      (startCol 0 1 2 1, endCol 0 1 2 1) = (-1, 0) ∧
      ((0 - 1 : Int) % 2 * 1, (0 - 1 : Int) % 2 * 1 + 1) = (1, 2) := by
  decide

/-- C9: at `n = 2`, `P = 2` rank 0 gathers `localSize = 2` scalars from each of
the two ranks into its `localResult` of `localSize = 2` scalars: the buffer has
no room for the `2 · 2` gathered scalars and the gather faults. -/
theorem gather_overflows_at_two_ranks :
    main 2 0 2 = matrixMultiply1 2 0 2 1 ++ [Op.gatherInPlace 2] ∧
      main 2 1 2 = matrixMultiply1 2 1 2 1 ++ [Op.gatherSend 2] ∧
      localSize 2 2 = 2 ∧ localSize 2 2 < 2 * 2 ∧
      (allocate 2 2 (fun _ => (1 : Int)) (fun _ => 1) (fun _ => 0)).result.length = 2 ∧
      mpiGather 2 ([19, 22] : List Int) [[43, 50]] = none ∧
      commRound
        [(allocate 2 2 (fun _ => (1 : Int)) (fun _ => 1) (fun _ => 0),
            [Op.gatherInPlace (localSize 2 2)]),
          (allocate 2 2 (fun _ => (1 : Int)) (fun _ => 1) (fun _ => 0),
            [Op.gatherSend (localSize 2 2)])] = none := by
  decide

/-- C1: at `n = 2`, `P = 2`, `A = [[1, 2], [3, 4]]`, `B = [[5, 6], [7, 8]]` the
run of the ring engine faults whatever the number of rounds allowed: it yields
no result bands, where the product is `[[19, 22], [43, 50]]`. -/
theorem ring_run_faults_at_two_ranks :
    ∀ fuel, mpiRun fuel (ringProcs ([1, 2, 3, 4] : List Int) [5, 6, 7, 8] 2 2) = none := by
  intro fuel
  cases fuel <;> rfl

/-! ## Arithmetic on `int` -/

theorem int32_of_range (x : Int) (h0 : -2147483648 ≤ x) (h1 : x < 2147483648) :
    int32 x = x := by
  unfold int32
  omega

theorem forRange_length (lo hi : Int) : (forRange lo hi).length = (hi - lo).toNat := by
  simp [forRange]

theorem mem_forRange_zero (x hi : Int) (h0 : 0 ≤ x) (h1 : x < hi) : x ∈ forRange 0 hi := by
  simp only [forRange, List.mem_map, List.mem_range]
  exact ⟨x.toNat, by omega, by omega⟩

theorem bounds_of_mem_forRange (lo hi x : Int) (h : x ∈ forRange lo hi) : lo ≤ x ∧ x < hi := by
  simp only [forRange, List.mem_map, List.mem_range] at h
  obtain ⟨t, ht, rfl⟩ := h
  omega

theorem flatMap_congr_mem {α β : Type} (l : List α) (f g : α → List β)
    (h : ∀ x ∈ l, f x = g x) : l.flatMap f = l.flatMap g := by
  induction l with
  | nil => rfl
  | cons x xs ih =>
    simp only [List.flatMap_cons]
    rw [h x (List.mem_cons_self _ _), ih fun y hy => h y (List.mem_cons_of_mem _ hy)]

/-! ## The exchanges of one run of `matrixMultiply1` -/

theorem exchangesOf_append (xs ys : List Op) :
    exchangesOf (xs ++ ys) = exchangesOf xs ++ exchangesOf ys := by
  simp [exchangesOf]

theorem exchangesOf_flatMap {α : Type} (xs : List α) (f : α → List Op) :
    exchangesOf (xs.flatMap f) = xs.flatMap fun x => exchangesOf (f x) := by
  induction xs with
  | nil => rfl
  | cons x xs ih => simp [exchangesOf_append, ih]

theorem exchangesOf_cellOps (n i j j_k : Int) : exchangesOf (cellOps n i j j_k) = [] := by
  simp only [exchangesOf, List.filter_eq_nil_iff, cellOps]
  intro op hop
  simp only [List.mem_cons, List.mem_append, List.mem_map, List.mem_singleton,
    List.not_mem_nil, or_false] at hop
  rcases hop with (rfl | ⟨k, _, rfl⟩) | rfl <;> simp

theorem exchangesOf_stepCompute (n rank size rpp step : Int) :
    exchangesOf (stepCompute n rank size rpp step) = [] := by
  simp [stepCompute, exchangesOf_flatMap, exchangesOf_cellOps]

theorem flatMap_const_singleton {α β : Type} (xs : List α) (e : β) :
    (xs.flatMap fun _ => [e]) = List.replicate xs.length e := by
  induction xs with
  | nil => rfl
  | cons x xs ih => simp [ih, List.replicate_succ]

theorem rank_send_eq_self_iff (rank size : Int) (hr0 : 0 ≤ rank) (hr1 : rank < size)
    (hs : size < 2147483648) : rank_send rank size = rank ↔ size = 1 := by
  unfold rank_send iadd
  rw [int32_of_range (rank + 1) (by omega) (by omega)]
  constructor
  · intro h
    by_cases hlt : rank + 1 < size
    · rw [Int.tmod_eq_of_lt (by omega) hlt] at h
      omega
    · have hs : rank + 1 = size := by omega
      rw [hs, Int.tmod_self] at h
      omega
  · intro h
    subst h
    have : rank = 0 := by omega
    subst this
    decide

theorem matrixMultiply1_steps (n rank size rpp : Int) (h : rank_send rank size ≠ rank) :
    matrixMultiply1 n rank size rpp =
      (forRange 0 size).flatMap fun step =>
        stepCompute n rank size rpp step ++
          [Op.sendrecv (imul n rpp) (rank_send rank size) (rank_recv rank size)] := by
  simp only [matrixMultiply1, stepExchange, h, ne_eq, not_false_eq_true, if_true]

theorem exchangesOf_matrixMultiply1 (n rank size rpp : Int) (hr0 : 0 ≤ rank)
    (hr1 : rank < size) (hs : size < 2147483648) :
    exchangesOf (matrixMultiply1 n rank size rpp) =
      if size = 1 then []
      else List.replicate size.toNat
        (Op.sendrecv (imul n rpp) (rank_send rank size) (rank_recv rank size)) := by
  have hiff := rank_send_eq_self_iff rank size hr0 hr1 hs
  by_cases h1 : size = 1
  · have hself : rank_send rank size = rank := hiff.mpr h1
    unfold matrixMultiply1
    rw [exchangesOf_flatMap]
    simp only [exchangesOf_append, exchangesOf_stepCompute, stepExchange, hself, ne_eq,
      not_true_eq_false, if_false, if_pos h1, List.append_nil]
    exact List.flatMap_eq_nil_iff.mpr fun _ _ => rfl
  · have hne : rank_send rank size ≠ rank := fun h => h1 (hiff.mp h)
    rw [matrixMultiply1_steps n rank size rpp hne, exchangesOf_flatMap, if_neg h1]
    have hone : ∀ step, exchangesOf (stepCompute n rank size rpp step ++
        [Op.sendrecv (imul n rpp) (rank_send rank size) (rank_recv rank size)]) =
        [Op.sendrecv (imul n rpp) (rank_send rank size) (rank_recv rank size)] := by
      intro step
      rw [exchangesOf_append, exchangesOf_stepCompute]
      rfl
    simp only [hone]
    rw [flatMap_const_singleton, forRange_length]
    simp

/-- C10 (as stated) fails: at `n = 2`, `P = 2` the program order of rank 0 holds
two exchange calls, one after each of its two steps, not `P - 1 = 1`; and run
on the buffers `main` allocates, rank 0 completes `sum = 0` and one
multiply-accumulate and faults on the read of `matB[2]`, before any exchange. -/
theorem exchange_count_at_two_ranks :
    exchangesOf (matrixMultiply1 2 0 2 (rowsPerProcess 2 2)) =
        [Op.sendrecv 2 1 (-1), Op.sendrecv 2 1 (-1)] ∧
      (exchangesOf (matrixMultiply1 2 0 2 (rowsPerProcess 2 2))).length ≠ 2 - 1 ∧
      completed (matrixMultiply1 2 0 2 (rowsPerProcess 2 2))
        (allocate 2 2 (fun _ => (1 : Int)) (fun _ => 1) (fun _ => 0)) =
          [Op.clear, Op.mac 0 0] ∧
      firstFault (matrixMultiply1 2 0 2 (rowsPerProcess 2 2))
        (allocate 2 2 (fun _ => (1 : Int)) (fun _ => 1) (fun _ => 0)) =
          some (Op.mac 1 2) := by
  decide

/-- C10 (amended): for every rank in `[0, P)` the program order of
`matrixMultiply1` holds no exchange call when `P = 1`; when `P ≥ 2` it is, for
`step = 0 … P-1` in turn, the compute of the step followed by one exchange
call, so `P` exchange calls, one after every step the last included, none
inside a compute.  Each call has the count `n * rowsPerProcess` as computed in
`int`, which is `n · rowsPerProcess` when that is in `[0, 2^31)`, the
destination `rank_send` and the source `rank_recv`. -/
theorem matrixMultiply1_exchanges (n rank size rpp : Int) (hr0 : 0 ≤ rank) (hr1 : rank < size)
    (hs : size < 2147483648) :
    (size = 1 → exchangesOf (matrixMultiply1 n rank size rpp) = []) ∧
      (size ≠ 1 →
        matrixMultiply1 n rank size rpp =
            (forRange 0 size).flatMap (fun step =>
              stepCompute n rank size rpp step ++
                [Op.sendrecv (imul n rpp) (rank_send rank size) (rank_recv rank size)]) ∧
          exchangesOf (matrixMultiply1 n rank size rpp) =
            List.replicate size.toNat
              (Op.sendrecv (imul n rpp) (rank_send rank size) (rank_recv rank size))) ∧
      (∀ step, exchangesOf (stepCompute n rank size rpp step) = []) ∧
      (0 ≤ n * rpp → n * rpp < 2147483648 → imul n rpp = n * rpp) := by
  have hex := exchangesOf_matrixMultiply1 n rank size rpp hr0 hr1 hs
  refine ⟨fun h1 => by rw [hex, if_pos h1], fun h1 => ⟨?_, by rw [hex, if_neg h1]⟩,
    exchangesOf_stepCompute n rank size rpp, fun h0 h1 => int32_of_range _ (by omega) h1⟩
  exact matrixMultiply1_steps n rank size rpp
    fun h => h1 ((rank_send_eq_self_iff rank size hr0 hr1 hs).mp h)

/-- The program order of rank 1 of 3 at `n = 6`: three computes, each followed by
the exchange of 12 scalars. -/
theorem matrixMultiply1_exchanges_witness :
    (0 : Int) ≤ 1 ∧ (1 : Int) < 3 ∧ (3 : Int) < 2147483648 ∧
      (((3 : Int) = 1 → exchangesOf (matrixMultiply1 6 1 3 2) = []) ∧
        ((3 : Int) ≠ 1 →
          matrixMultiply1 6 1 3 2 =
              (forRange 0 3).flatMap (fun step =>
                stepCompute 6 1 3 2 step ++
                  [Op.sendrecv (imul 6 2) (rank_send 1 3) (rank_recv 1 3)]) ∧
            exchangesOf (matrixMultiply1 6 1 3 2) =
              List.replicate (3 : Int).toNat
                (Op.sendrecv (imul 6 2) (rank_send 1 3) (rank_recv 1 3))) ∧
        (∀ step, exchangesOf (stepCompute 6 1 3 2 step) = []) ∧
        ((0 : Int) ≤ 6 * 2 → (6 : Int) * 2 < 2147483648 → imul 6 2 = 6 * 2)) :=
  ⟨by decide, by decide, by decide,
    matrixMultiply1_exchanges 6 1 3 2 (by decide) (by decide) (by decide)⟩

/-! ## `main` has no divisibility check -/

theorem forRange_zero_natCast (n : Nat) :
    forRange 0 (n : Int) = (List.range n).map fun (t : Nat) => (t : Int) := by
  simp [forRange]

theorem forRange_zero_succ (n : Nat) :
    forRange 0 ((n + 1 : Nat) : Int) = forRange 0 (n : Int) ++ [(n : Int)] := by
  rw [forRange_zero_natCast, forRange_zero_natCast, List.range_succ, List.map_append]
  rfl

theorem runSeq_append {T : Type} [Zero T] [Add T] [Mul T] (xs ys : List Op) (m : Mem T) :
    runSeq (xs ++ ys) m = (runSeq xs m).bind (runSeq ys) := by
  induction xs generalizing m with
  | nil => rfl
  | cons op xs ih =>
    simp only [List.cons_append, runSeq]
    cases exec m op with
    | none => rfl
    | some m1 => simpa using ih m1

theorem load_natCast {T : Type} [Zero T] (buf : List T) (idx : Nat) (h : idx < buf.length) :
    load buf (idx : Int) = some (buf.getD idx 0) := by
  simp [load, List.getD, List.getElem?_eq_getElem h]

theorem storeAt_natCast {T : Type} (buf : List T) (idx : Nat) (v : T) (h : idx < buf.length) :
    storeAt buf (idx : Int) v = some (buf.set idx v) := by
  simp [storeAt, h]

theorem index_lt_square (n i k : Nat) (hi : i < n) (hk : k < n) : i * n + k < n * n := by
  have h1 : (i + 1) * n ≤ n * n := Nat.mul_le_mul_right n hi
  have h2 : (i + 1) * n = i * n + n := by ring
  omega

/-- For `n ≤ 46340` no index of an `n × n` matrix overflows `int`. -/
theorem index_int32 (n i k : Nat) (hn : n ≤ 46340) (hi : i < n) (hk : k < n) :
    iadd (imul (i : Int) (n : Int)) (k : Int) = ((i * n + k : Nat) : Int) := by
  have hp : i * n + k < n * n := index_lt_square n i k hi hk
  have hsq : n * n ≤ 46340 * 46340 := Nat.mul_le_mul hn hn
  have e1 : (i : Int) * (n : Int) = ((i * n : Nat) : Int) := by push_cast; rfl
  have e2 : ((i * n : Nat) : Int) + (k : Int) = ((i * n + k : Nat) : Int) := by push_cast; rfl
  have hin : int32 ((i * n : Nat) : Int) = ((i * n : Nat) : Int) :=
    int32_of_range _ (by omega) (by omega)
  unfold iadd imul
  rw [e1, hin, e2, int32_of_range _ (by omega) (by omega)]

/-- The `k` loop: `c` multiply-accumulate operations of the cell `(i, j)`. -/
theorem runSeq_macs {T : Type} [Zero T] [Add T] [Mul T] (m : Mem T) (n i j : Nat)
    (hn : n ≤ 46340) (hA : m.matA.length = n * n)
    (hB : m.matB.length = n * n) (hi : i < n) (hj : j < n) (c : Nat) (hc : c ≤ n) :
    runSeq ((forRange 0 (c : Int)).map fun k =>
        Op.mac (iadd (imul (i : Int) n) k) (iadd (imul k n) j)) m =
      some { m with sum := ((List.range c).foldl
        (fun s k => s + m.matA.getD (i * n + k) 0 * m.matB.getD (k * n + j) 0) m.sum) } := by
  induction c with
  | zero => rfl
  | succ c ih =>
    rw [forRange_zero_succ, List.map_append, runSeq_append, ih (by omega)]
    have ha := index_int32 n i c hn hi (by omega)
    have hb := index_int32 n c j hn (by omega) hj
    have hla := load_natCast m.matA (i * n + c) (by rw [hA]; exact index_lt_square n i c hi (by omega))
    have hlb := load_natCast m.matB (c * n + j) (by rw [hB]; exact index_lt_square n c j (by omega) hj)
    rw [List.range_succ, List.foldl_append]
    simp only [List.map_cons, List.map_nil, Option.some_bind, runSeq, ha, hb]
    simp only [exec, hla, hlb, List.foldl_cons, List.foldl_nil]
    rfl

/-- The body of the `j` loop of `matrixMultiply`: the cell `(i, j)`. -/
theorem runSeq_cell {T : Type} [Zero T] [Add T] [Mul T] (m : Mem T) (n i j : Nat)
    (hn : n ≤ 46340) (hA : m.matA.length = n * n)
    (hB : m.matB.length = n * n) (hR : m.result.length = n * n) (hi : i < n) (hj : j < n) :
    runSeq (Op.clear :: ((forRange 0 (n : Int)).map fun k =>
        Op.mac (iadd (imul (i : Int) n) k) (iadd (imul k n) j))
          ++ [Op.store (iadd (imul (i : Int) n) j)]) m =
      some { m with
        sum := productCell m.matA m.matB n i j
        result := m.result.set (i * n + j) (productCell m.matA m.matB n i j) } := by
  have hmacs := runSeq_macs { m with sum := 0 } n i j hn hA hB hi hj n (le_refl n)
  have hr := index_int32 n i j hn hi hj
  have hst := storeAt_natCast m.result (i * n + j) (productCell m.matA m.matB n i j)
    (by rw [hR]; exact index_lt_square n i j hi hj)
  rw [List.cons_append]
  simp only [runSeq, exec, Option.some_bind]
  rw [runSeq_append, hmacs]
  simp only [Option.some_bind, runSeq, exec, hr]
  simp only [productCell] at hst ⊢
  simp only [hst, Option.map_some', Option.some_bind]

/-- A counted loop that keeps an invariant runs to its end. -/
theorem runSeq_flatMap_forRange {T : Type} [Zero T] [Add T] [Mul T] (f : Int → List Op)
    (I : Nat → Mem T → Prop) (cnt : Nat)
    (hstep : ∀ t, t < cnt → ∀ m, I t m → ∃ m1, runSeq (f t) m = some m1 ∧ I (t + 1) m1)
    (m : Mem T) (h0 : I 0 m) :
    ∃ m1, runSeq ((forRange 0 (cnt : Int)).flatMap f) m = some m1 ∧ I cnt m1 := by
  induction cnt with
  | zero => exact ⟨m, rfl, h0⟩
  | succ cnt ih =>
    obtain ⟨m1, hrun, hI⟩ := ih fun t ht => hstep t (by omega)
    obtain ⟨m2, hrun2, hI2⟩ := hstep cnt (by omega) m1 hI
    refine ⟨m2, ?_, hI2⟩
    rw [forRange_zero_succ, List.flatMap_append, runSeq_append, hrun]
    simpa using hrun2

theorem cellsDone_cell {T : Type} [Zero T] [Add T] [Mul T] (m0 m : Mem T) (n i j : Nat)
    (hn : n ≤ 46340) (hA : m0.matA.length = n * n)
    (hB : m0.matB.length = n * n) (hR : m0.result.length = n * n) (hi : i < n) (hj : j < n)
    (h : CellsDone m0 n (i * n + j) m) :
    ∃ m1, runSeq (Op.clear :: ((forRange 0 (n : Int)).map fun k =>
        Op.mac (iadd (imul (i : Int) n) k) (iadd (imul k n) j))
          ++ [Op.store (iadd (imul (i : Int) n) j)]) m = some m1 ∧
      CellsDone m0 n (i * n + j + 1) m1 := by
  obtain ⟨hmA, hmB, hmR, hcells⟩ := h
  refine ⟨_, runSeq_cell m n i j hn (by rw [hmA, hA]) (by rw [hmB, hB]) (by rw [hmR, hR]) hi hj,
    hmA, hmB, by simpa using hmR, ?_⟩
  intro idx hidx
  have hlen : i * n + j < m.result.length := by
    rw [hmR, hR]; exact index_lt_square n i j hi hj
  by_cases he : idx = i * n + j
  · subst he
    have hdiv : (i * n + j) / n = i := by
      rw [Nat.add_comm, Nat.add_mul_div_right _ _ (by omega), Nat.div_eq_of_lt hj, Nat.zero_add]
    have hmod : (i * n + j) % n = j := by
      rw [Nat.add_comm, Nat.add_mul_mod_self_right, Nat.mod_eq_of_lt hj]
    simp [hdiv, hmod, hmA, hmB, hlen]
  · have hlt : idx < i * n + j := by omega
    simp only [List.getElem?_set, if_neg (Ne.symm he)]
    exact hcells idx hlt

theorem cellsDone_matrixMultiply {T : Type} [Zero T] [Add T] [Mul T] (m : Mem T) (n : Nat)
    (hn : n ≤ 46340) (hA : m.matA.length = n * n)
    (hB : m.matB.length = n * n) (hR : m.result.length = n * n) :
    ∃ m1, runSeq (matrixMultiply n) m = some m1 ∧ CellsDone m n (n * n) m1 := by
  unfold matrixMultiply
  refine runSeq_flatMap_forRange _ (fun i m1 => CellsDone m n (i * n) m1) n ?_ m
    ⟨rfl, rfl, rfl, fun idx hidx => by omega⟩
  intro i hi m1 h1
  have hrow := runSeq_flatMap_forRange
    (fun j : Int => Op.clear :: ((forRange 0 (n : Int)).map fun k =>
        Op.mac (iadd (imul (i : Int) n) k) (iadd (imul k n) j))
          ++ [Op.store (iadd (imul (i : Int) n) j)])
    (fun j m2 => CellsDone m n (i * n + j) m2) n
    (fun j hj m2 h2 => cellsDone_cell m m2 n i j hn hA hB hR hi hj h2) m1 (by simpa using h1)
  obtain ⟨m2, hrun, h2⟩ := hrow
  refine ⟨m2, hrun, ?_⟩
  have : (i + 1) * n = i * n + n := by ring
  simpa [this] using h2

theorem matrixMultiply1_eq_matrixMultiply (n : Int) (hn0 : 0 ≤ n) (hn : n < 2147483648) :
    matrixMultiply1 n 0 1 n = matrixMultiply n := by
  have h1 : forRange 0 1 = [0] := by decide
  have hz : int32 0 = 0 := rfl
  have hsc : startCol 0 0 1 n = 0 := by
    simp [startCol, isub, imul, hz]
  have hec : endCol 0 0 1 n = n := by
    unfold endCol iadd
    rw [hsc, Int.zero_add, int32_of_range n (by omega) hn]
  have hex : stepExchange n 0 1 n = [] := by
    simp [stepExchange, rank_send]
  unfold matrixMultiply1 matrixMultiply
  rw [h1, List.flatMap_cons, List.flatMap_nil, List.append_nil, hex, List.append_nil]
  unfold stepCompute
  rw [hsc, hec]
  apply flatMap_congr_mem
  intro i _
  apply flatMap_congr_mem
  intro j hj
  have hb := bounds_of_mem_forRange 0 n j hj
  have hjk : isub j 0 = j := by
    unfold isub
    rw [Int.sub_zero, int32_of_range j (by omega) (by omega)]
  rw [hjk]
  rfl

theorem isLocal_of_mem_matrixMultiply (n : Int) (op : Op) (h : op ∈ matrixMultiply n) :
    op.isLocal = true := by
  simp only [matrixMultiply, List.mem_flatMap, List.mem_cons, List.mem_append, List.mem_map,
    List.mem_singleton, List.not_mem_nil, or_false] at h
  obtain ⟨i, _, j, _, (rfl | ⟨k, _, rfl⟩) | rfl⟩ := h <;> rfl

theorem mac_mem_matrixMultiply (n i j k : Int) (hi : i ∈ forRange 0 n) (hj : j ∈ forRange 0 n)
    (hk : k ∈ forRange 0 n) :
    Op.mac (iadd (imul i n) k) (iadd (imul k n) j) ∈ matrixMultiply n := by
  simp only [matrixMultiply, List.mem_flatMap, List.mem_cons, List.mem_append, List.mem_map,
    List.mem_singleton, List.not_mem_nil, or_false]
  exact ⟨i, hi, j, hj, Or.inl (Or.inr ⟨k, hk, rfl⟩)⟩

theorem runLocal_of_isLocal {T : Type} [Zero T] [Add T] [Mul T] (ops : List Op) (m : Mem T)
    (h : ∀ op ∈ ops, op.isLocal = true) :
    runLocal ops m = (runSeq ops m).map fun m1 => (m1, []) := by
  induction ops generalizing m with
  | nil => rfl
  | cons op ops ih =>
    have hop : op.isLocal = true := h op (List.mem_cons_self _ _)
    simp only [runLocal, hop, if_true, runSeq]
    cases exec m op with
    | none => rfl
    | some m1 => simpa using ih m1 fun o ho => h o (List.mem_cons_of_mem _ ho)

theorem mpiRun_single_local {T : Type} [Zero T] [Add T] [Mul T] (fuel : Nat) (ops : List Op)
    (m : Mem T) (h : ∀ op ∈ ops, op.isLocal = true) :
    mpiRun fuel [(m, ops)] = (runSeq ops m).map fun m1 => [m1] := by
  cases hrun : runSeq ops m with
  | none => cases fuel <;> simp [mpiRun, allSome, runLocal_of_isLocal ops m h, hrun]
  | some m1 => cases fuel <;> simp [mpiRun, allSome, runLocal_of_isLocal ops m h, hrun]

/-- A read of `matA` at a negative index faults the run whatever the buffers. -/
theorem runSeq_eq_none_of_mac_neg {T : Type} [Zero T] [Add T] [Mul T] (ops : List Op)
    (m : Mem T) (a b : Int) (hmem : Op.mac a b ∈ ops) (hneg : a < 0) : runSeq ops m = none := by
  induction ops generalizing m with
  | nil => cases hmem
  | cons op ops ih =>
    simp only [runSeq]
    cases hex : exec m op with
    | none => rfl
    | some m1 =>
      rcases List.mem_cons.mp hmem with heq | htail
      · subst heq
        have hload : load m.matA a = none := by simp [load, hneg]
        simp [exec, hload] at hex
      · simpa using ih m1 htail

/-- C3 (as stated) fails: at `n = 46341` the index `i * n + k` of `matA` at
`i = 46340`, `k = 41708` is `2^31`, beyond `int`; it wraps to `-2^31`, and
`matrixMultiply` of `mm.cpp`, and with it `matrixMultiply1` with one process,
faults on `n × n` buffers instead of writing the sums. -/
theorem matrixMultiply_faults_at_46341 :
    (46340 : Int) * 46341 + 41708 = 2147483648 ∧
      iadd (imul 46340 46341) 41708 = -2147483648 ∧
      runSeq (matrixMultiply 46341)
        (Mem.mk (List.replicate (46341 * 46341) (1 : Int)) (List.replicate (46341 * 46341) 1)
          (List.replicate (46341 * 46341) 0) 0) = none ∧
      mpiRun 0
        [(Mem.mk (List.replicate (46341 * 46341) (1 : Int)) (List.replicate (46341 * 46341) 1)
          (List.replicate (46341 * 46341) 0) 0, matrixMultiply1 46341 0 1 46341)] = none := by
  have hneg : iadd (imul 46340 46341) 41708 = -2147483648 := by decide
  have hmem : Op.mac (iadd (imul 46340 46341) 41708) (iadd (imul 41708 46341) 0) ∈
      matrixMultiply 46341 :=
    mac_mem_matrixMultiply 46341 46340 0 41708
      (mem_forRange_zero _ _ (by decide) (by decide))
      (mem_forRange_zero _ _ (by decide) (by decide))
      (mem_forRange_zero _ _ (by decide) (by decide))
  have hrun := runSeq_eq_none_of_mac_neg (matrixMultiply 46341)
    (Mem.mk (List.replicate (46341 * 46341) (1 : Int)) (List.replicate (46341 * 46341) 1)
      (List.replicate (46341 * 46341) 0) 0) _ _ hmem (by rw [hneg]; decide)
  refine ⟨by decide, hneg, hrun, ?_⟩
  rw [matrixMultiply1_eq_matrixMultiply 46341 (by decide) (by decide),
    mpiRun_single_local 0 _ _ (isLocal_of_mem_matrixMultiply 46341), hrun]
  rfl

/-- C3 (amended): with a single process (`size = 1`, `rank = 0`,
`rowsPerProcess = n`), for every `n ≥ 0` of type `int`, `matrixMultiply1`
issues exactly the operations of `matrixMultiply` of `mm.cpp` and no exchange,
so that on any buffers the two runs end alike; and for every `n ≤ 46340`, where
`n · n` fits `int`, on `n × n` buffers the run completes, leaves the inputs as
they were and holds at `result[i·n + j]` the sum
`Σ_k matA[i·n + k] · matB[k·n + j]` accumulated for `k = 0 … n-1` in increasing
order. -/
theorem matrixMultiply1_single_process {T : Type} [Zero T] [Add T] [Mul T] (n : Nat)
    (hn : n < 2147483648) :
    matrixMultiply1 n 0 1 n = matrixMultiply n ∧
      exchangesOf (matrixMultiply1 n 0 1 n) = [] ∧
      (∀ (m : Mem T) (fuel : Nat),
        mpiRun fuel [(m, matrixMultiply1 n 0 1 n)] =
          (runSeq (matrixMultiply n) m).map fun m1 => [m1]) ∧
      (n ≤ 46340 → ∀ m : Mem T, m.matA.length = n * n → m.matB.length = n * n →
        m.result.length = n * n →
        ∃ m1, runSeq (matrixMultiply n) m = some m1 ∧
          m1.matA = m.matA ∧ m1.matB = m.matB ∧ m1.result.length = n * n ∧
          ∀ i j, i < n → j < n →
            m1.result[i * n + j]? = some (productCell m.matA m.matB n i j)) := by
  have heq := matrixMultiply1_eq_matrixMultiply (n : Int) (by omega) (by omega)
  refine ⟨heq, ?_, ?_, ?_⟩
  · have := exchangesOf_matrixMultiply1 n 0 1 n (by decide) (by decide) (by decide)
    simpa using this
  · intro m fuel
    rw [heq]
    exact mpiRun_single_local fuel _ m (isLocal_of_mem_matrixMultiply n)
  · intro hsmall m hA hB hR
    obtain ⟨m1, hrun, hmA, hmB, hmR, hcells⟩ := cellsDone_matrixMultiply m n hsmall hA hB hR
    refine ⟨m1, hrun, hmA, hmB, by rw [hmR, hR], ?_⟩
    intro i j hi hj
    have hdiv : (i * n + j) / n = i := by
      rw [Nat.add_comm, Nat.add_mul_div_right _ _ (by omega), Nat.div_eq_of_lt hj, Nat.zero_add]
    have hmod : (i * n + j) % n = j := by
      rw [Nat.add_comm, Nat.add_mul_mod_self_right, Nat.mod_eq_of_lt hj]
    have := hcells (i * n + j) (index_lt_square n i j hi hj)
    rwa [hdiv, hmod] at this

/-- The single-process theorem at `n = 2`, over the integers. -/
theorem matrixMultiply1_single_process_witness :
    (2 : Nat) < 2147483648 ∧
      (matrixMultiply1 (2 : Nat) 0 1 (2 : Nat) = matrixMultiply (2 : Nat) ∧
        exchangesOf (matrixMultiply1 (2 : Nat) 0 1 (2 : Nat)) = [] ∧
        (∀ (m : Mem Int) (fuel : Nat),
          mpiRun fuel [(m, matrixMultiply1 (2 : Nat) 0 1 (2 : Nat))] =
            (runSeq (matrixMultiply (2 : Nat)) m).map fun m1 => [m1]) ∧
        (2 ≤ 46340 → ∀ m : Mem Int, m.matA.length = 2 * 2 → m.matB.length = 2 * 2 →
          m.result.length = 2 * 2 →
          ∃ m1, runSeq (matrixMultiply (2 : Nat)) m = some m1 ∧
            m1.matA = m.matA ∧ m1.matB = m.matB ∧ m1.result.length = 2 * 2 ∧
            ∀ i j, i < 2 → j < 2 →
              m1.result[i * 2 + j]? = some (productCell m.matA m.matB 2 i j))) :=
  ⟨by decide, @matrixMultiply1_single_process Int _ _ _ 2 (by decide)⟩

end MatMul
